import Mathlib

/-!
# node-apt: the stanza parser, the alias table and the command builders

A shallow embedding of `src/index.js`.

* A JavaScript string is modelled as a list of characters (`Str`).  The parser only ever
  inspects the characters space, colon, full stop, line feed and the white space removed by
  `String.prototype.trim`, all of which are single UTF-16 code units, so nothing depends on
  the difference between code units and code points.
* A JavaScript object used as a dictionary with string values (`parsed`, `_path`) is an
  association list of its own properties (`JSObject`).  Two facts of the language are kept:
  assigning a string to the property `__proto__` of an object created by `{}` runs the setter
  inherited from `Object.prototype`, which ignores values that are not objects, so no own
  property is created; and reading `obj[k]` falls back to the members of `Object.prototype`
  when `obj` has no own property `k`.
* A subprocess run (`child_process.exec`) is an abstract result: an error, or success with the
  captured standard output.  The streaming of output chunks through the event emitter is not
  modelled, and the alias table is taken not to change while an operation is in flight.
-/

namespace NodeApt

/-- A JavaScript string. -/
abbrev Str := List Char

/-! ## String primitives used by the source -/

/-- The code points that `String.prototype.trim` removes: ECMAScript `WhiteSpace`
(TAB, VT, FF, SP, NBSP, ZWNBSP and the Unicode space separators) and `LineTerminator`
(LF, CR, LS, PS). -/
def isTrimChar (c : Char) : Bool :=
  let n := c.toNat
  n = 0x09 || n = 0x0A || n = 0x0B || n = 0x0C || n = 0x0D || n = 0x20 || n = 0xA0 ||
  n = 0x1680 || (0x2000 ≤ n && n ≤ 0x200A) || n = 0x2028 || n = 0x2029 || n = 0x202F ||
  n = 0x205F || n = 0x3000 || n = 0xFEFF

/-- `String.prototype.trim`. -/
def trim (s : Str) : Str :=
  ((s.dropWhile isTrimChar).reverse.dropWhile isTrimChar).reverse

/-- `String.prototype.split` with a one-character separator: always at least one piece. -/
def split (sep : Char) : Str → List Str
  | [] => [[]]
  | c :: cs =>
    if c = sep then [] :: split sep cs
    else
      match split sep cs with
      | [] => [[c]]
      | p :: ps => (c :: p) :: ps

/-- `Array.prototype.join` with a one-character separator. -/
def join (sep : Char) : List Str → Str
  | [] => []
  | [p] => p
  | p :: q :: ps => p ++ sep :: join sep (q :: ps)

/-! ## Objects used as dictionaries -/

/-- The own properties of an object created by `{}` whose values are strings, in the order
of their first assignment.  The order is kept for definiteness only: the source never
enumerates these objects, and the statements below that compare whole dictionaries compare
them as the same fields in the same order of assignment. -/
abbrev JSObject := List (Str × Str)

/-- The property name whose assignment is intercepted by `Object.prototype`. -/
def protoKey : Str := "__proto__".toList

/-- The own property `k`, if any. -/
def JSObject.getOwn (o : JSObject) (k : Str) : Option Str :=
  match o with
  | [] => none
  | (k', v) :: rest => if k' = k then some v else JSObject.getOwn rest k

/-- Overwrite the own property `k`, or add it at the end. -/
def JSObject.put (o : JSObject) (k v : Str) : JSObject :=
  match o with
  | [] => [(k, v)]
  | (k', v') :: rest => if k' = k then (k', v) :: rest else (k', v') :: JSObject.put rest k v

/-- The assignment `o[k] = v` for a string `v`: an own property is written, except that
`o['__proto__'] = v` leaves the object as it was. -/
def JSObject.set (o : JSObject) (k v : Str) : JSObject :=
  if k = protoKey then o else o.put k v

/-- The own enumerable property names (`Object.keys`). -/
def JSObject.keys (o : JSObject) : List Str := o.map Prod.fst

/-! ## `_parseOutput` -/

/-- The three variables of `_parseOutput` that the loop body updates.  `currKey = none`
is the initial `null`. -/
structure ParseState where
  parsed : JSObject
  currKey : Option Str
  currValue : Str
  deriving DecidableEq, Repr

/-- The test `if (currKey)`: neither `null` nor the empty string. -/
def keyTruthy : Option Str → Bool
  | none => false
  | some k => !k.isEmpty

/-- The statement `if (currKey) { parsed[currKey] = currValue; }`. -/
def applyKey (st : ParseState) : JSObject :=
  match st.currKey with
  | none => st.parsed
  | some k => if keyTruthy (some k) then st.parsed.set k st.currValue else st.parsed

/-- The body of the `_.each` loop, for one line. -/
def parseLine (st : ParseState) (line : Str) : ParseState :=
  if line.head? ≠ some ' ' then
    let parts := split ':' line
    { parsed := applyKey st
      currKey := parts.head?
      currValue := trim (join ':' parts.tail) }
  else if line = [' ', '.'] then
    { st with currValue := st.currValue ++ ['\n', '\n'] }
  else
    { st with currValue := st.currValue ++ trim line }

/-- The state before the first line. -/
def initState : ParseState := { parsed := [], currKey := none, currValue := [] }

/-- The function `_parseOutput` of `src/index.js`. -/
def _parseOutput (output : Str) : JSObject :=
  if (trim output).isEmpty then []
  else applyKey ((split '\n' output).foldl parseLine initState)

/-! ## The alias table: `path` -/

/-- The names of the members of `Object.prototype`, which every object created by `{}`
inherits. -/
def objectPrototypeKeys : List Str :=
  ["constructor", "__defineGetter__", "__defineSetter__", "hasOwnProperty",
   "__lookupGetter__", "__lookupSetter__", "isPrototypeOf", "propertyIsEnumerable",
   "toString", "valueOf", "__proto__", "toLocaleString"].map String.toList

/-- What a property read on a dictionary of strings can produce, `undefined` apart: a string
that was stored, or the member of `Object.prototype` of the given name (a function, or for
`__proto__` the prototype object itself). -/
inductive JSVal where
  | str (s : Str)
  | inherited (name : Str)
  deriving DecidableEq, Repr

/-- The property read `o[k]`; `none` is `undefined`. -/
def JSObject.get (o : JSObject) (k : Str) : Option JSVal :=
  match o.getOwn k with
  | some v => some (JSVal.str v)
  | none => if k ∈ objectPrototypeKeys then some (JSVal.inherited k) else none

/-- Truthiness of a string: the empty string is falsy. -/
def strTruthy (s : Str) : Bool := !s.isEmpty

/-- Truthiness of a value read from a dictionary. -/
def JSVal.truthy : JSVal → Bool
  | JSVal.str s => strTruthy s
  | JSVal.inherited _ => true

/-- The function `path(alias, path)` of `src/index.js` on the table `_path`, with `a` for
the alias; the second argument is `none` when the caller omits it.  Returns the value returned to the caller and the
table afterwards. -/
def path (tbl : JSObject) (a : Str) (p : Option Str) : JSVal × JSObject :=
  let tbl' :=
    match p with
    | some q => if strTruthy q then tbl.set a q else tbl
    | none => tbl
  let r :=
    match tbl'.get a with
    | some v => if v.truthy then v else JSVal.str a
    | none => JSVal.str a
  (r, tbl')

/-! ## Arguments, subprocess results and callbacks -/

/-- Primitive JavaScript values. -/
inductive Prim where
  | undefined
  | null
  | bool (b : Bool)
  | num (n : Int)
  | str (s : Str)
  deriving DecidableEq, Repr

/-- Truthiness of a primitive. -/
def Prim.truthy : Prim → Bool
  | Prim.undefined => false
  | Prim.null => false
  | Prim.bool b => b
  | Prim.num n => n != 0
  | Prim.str s => strTruthy s

/-- An argument of `install` or `upgrade` after the name: a primitive, a function (the
completion callback, identified by a number), or an options record, of which only the field
`confnew` is ever read (`none` when the record has no such field). -/
inductive Arg where
  | prim (p : Prim)
  | func (id : Nat)
  | record (confnew : Option Prim)
  deriving DecidableEq, Repr

/-- The underscore test `_.isString`. -/
def isString : Arg → Bool
  | Arg.prim (Prim.str _) => true
  | _ => false

/-- The underscore test `_.isFunction`. -/
def isFunction : Arg → Bool
  | Arg.func _ => true
  | _ => false

/-- The read `args[0]`: `undefined` on an empty array. -/
def first (args : List Arg) : Arg := args.headD (Arg.prim Prim.undefined)

/-- The error object of a failed subprocess run. -/
structure ExecError where
  code : Nat
  stderr : Str
  deriving DecidableEq, Repr

/-- The outcome of one subprocess run, as `exec` reports it to its callback. -/
inductive ExecResult where
  | error (e : ExecError)
  | ok (stdout : Str)
  deriving DecidableEq, Repr

/-- What an operation does that its caller can observe: the command lines it runs and the
calls it makes to the completion callback.  `callback f err result` is a call of function `f`
with `err` (`none` for `null` or absent) and `result` (`none` when no second argument is
passed); `notCallable` is the `TypeError` of calling a value that is no function. -/
inductive Event where
  | exec (command : Str)
  | callback (f : Nat) (err : Option ExecError) (result : Option JSObject)
  | notCallable
  deriving DecidableEq, Repr

/-- Calling the callback value. -/
def invoke (cb : Arg) (err : Option ExecError) (result : Option JSObject) : Event :=
  match cb with
  | Arg.func f => Event.callback f err result
  | _ => Event.notCallable

section Operations

/- `render n` is the text that the `%s` of `util.format` prints for the member of
`Object.prototype` named `n`.  It is defined by the Node.js runtime, not by this repository,
and is left abstract. -/
variable (render : Str → Str)

/-- The `%s` of `util.format` applied to a value returned by `path`. -/
def formatS : JSVal → Str
  | JSVal.str s => s
  | JSVal.inherited n => render n

/-- The command line of `show`: `util.format('%s -s %s', path('dpkg'), name)`. -/
def showCommand (tbl : JSObject) (name : Str) : Str :=
  formatS render (path tbl "dpkg".toList none).1 ++ " -s ".toList ++ name

/-- The function `show(name, callback)`: the events it produces, given the outcome of the
inspector run. -/
def «show» (tbl : JSObject) (exec : Str → ExecResult) (name : Str) (callback : Arg) :
    List Event :=
  let cmd := showCommand render tbl name
  match exec cmd with
  | ExecResult.error e => [Event.exec cmd, invoke callback (some e) none]
  | ExecResult.ok stdout => [Event.exec cmd, invoke callback none (some (_parseOutput stdout))]

/-- The local variables of `install` once its argument list has been taken apart
(lines 73 to 84). -/
structure InstallVars where
  name : Str
  version : Option Str
  options : Arg
  callback : Arg
  forceConf : Str
  deriving DecidableEq, Repr

/-- The value `options.confnew` after `options = options || {}`. -/
def confnewOf (options : Arg) : Prim :=
  match options with
  | Arg.record (some v) => v
  | _ => Prim.undefined

/-- The expression `(options.confnew) ? 'new' : 'old'`. -/
def forceConfOf (options : Arg) : Str :=
  if (confnewOf options).truthy then "new".toList else "old".toList

/-- Lines 73 to 84 of `install`: `name` is the first argument, `args` the remaining ones. -/
def installVars (name : Str) (args : List Arg) : InstallVars :=
  let version : Option Str :=
    match first args with
    | Arg.prim (Prim.str v) => some v
    | _ => none
  let args1 := if isString (first args) then args.tail else args
  let options := if !isFunction (first args1) then first args1 else Arg.prim Prim.null
  let args2 := if !isFunction (first args1) then args1.tail else args1
  let callback := first args2
  let name' :=
    match version with
    | some v => if strTruthy v then name ++ '=' :: v else name
    | none => name
  { name := name', version := version, options := options, callback := callback,
    forceConf := forceConfOf options }

/-- The command line that `install` runs (line 86). -/
def installCommand (tbl : JSObject) (name : Str) (args : List Arg) : Str :=
  let v := installVars name args
  "sudo ".toList ++ (formatS render (path tbl "apt-get".toList none).1
    ++ " install -y -o Dpkg::Options::=\"--force-conf".toList ++ v.forceConf
    ++ "\" ".toList ++ v.name)

/-- The function `install`: the events it produces.  `exec 0` is the outcome of the installer
run and `exec 1` that of the inspector run which `show` starts afterwards. -/
def install (tbl : JSObject) (exec : Nat → Str → ExecResult) (name : Str) (args : List Arg) :
    List Event :=
  let v := installVars name args
  let cmd := installCommand render tbl name args
  match exec 0 cmd with
  | ExecResult.error e => [Event.exec cmd, invoke v.callback (some e) none]
  | ExecResult.ok _ => Event.exec cmd :: «show» render tbl (exec 1) v.name v.callback

/-- The command line that `upgrade` runs (lines 165 to 172). -/
def upgradeCommand (tbl : JSObject) (args : List Arg) : Str :=
  let options := if !isFunction (first args) then first args else Arg.prim Prim.null
  "sudo ".toList ++ (formatS render (path tbl "apt-get".toList none).1
    ++ " upgrade -y -o Dpkg::Options::=\"--force-confdef\" -o Dpkg::Options::=\"--force-conf".toList
    ++ forceConfOf options ++ "\"".toList)

/-- The function `upgrade`: the events it produces. -/
def upgrade (tbl : JSObject) (exec : Str → ExecResult) (args : List Arg) : List Event :=
  let args1 := if !isFunction (first args) then args.tail else args
  let callback := first args1
  let cmd := upgradeCommand render tbl args
  match exec cmd with
  | ExecResult.error e => [Event.exec cmd, invoke callback (some e) none]
  | ExecResult.ok _ => [Event.exec cmd, invoke callback none none]

end Operations

/-! ## Vocabulary of the specification -/

/-- The text of a field line `K:V`. -/
def fieldLine (kv : Str × Str) : Str := kv.1 ++ ':' :: kv.2

/-- What a continuation line adds to the value of the current field according to the
specification: a paragraph break for the line ` .`, the trimmed line otherwise. -/
def fragment (c : Str) : Str :=
  if c = " .".toList then "\n\n".toList else trim c

/-- The part of a line before its first colon, or the whole line when it has none. -/
def keyPart (line : Str) : Str := line.takeWhile (fun c => c != ':')

/-- A text consisting of white space only (the empty text included): the texts on which
`output.trim()` is empty. -/
def allWhite (s : Str) : Prop := ∀ c ∈ s, isTrimChar c = true

/-- Every field of the first dictionary is a field of the second, with the same value. -/
def JSObject.Sub (o1 o2 : JSObject) : Prop :=
  ∀ k v, o1.getOwn k = some v → o2.getOwn k = some v

/-- The relation between two runs of the loop of `_parseOutput` over the same lines, the
first started from the initial state and the second from any state: either the first run has
seen no field line yet, or both are inside the same field and the first run's fields are
among the second's. -/
def Agree (st1 st2 : ParseState) : Prop :=
  (st1.parsed = [] ∧ keyTruthy st1.currKey = false) ∨
  (st1.parsed.Sub st2.parsed ∧ st1.currKey = st2.currKey ∧ st1.currValue = st2.currValue)

instance (s : Str) : Decidable (allWhite s) :=
  inferInstanceAs (Decidable (∀ c ∈ s, isTrimChar c = true))

/-- The table `_path` after a sequence of calls of `path`, oldest first; each call is the alias
and the optional second argument. -/
def pathCalls (tbl : JSObject) (calls : List (Str × Option Str)) : JSObject :=
  calls.foldl (fun t c => (path t c.1 c.2).2) tbl

/-- The specifier of the specification: `name`, or `name=version`. -/
def specifier (name : Str) (version : Option Str) : Str :=
  match version with
  | some v => name ++ '=' :: v
  | none => name

/-- The version argument as the caller passes it: a text value, or nothing. -/
def versionArgs : Option Str → List Arg
  | some v => [Arg.prim (Prim.str v)]
  | none => []

/-- The options argument as the caller passes it: nothing, a record without the field
`confnew`, or a record whose `confnew` is a boolean. -/
def optionArgs : Option (Option Bool) → List Arg
  | none => []
  | some c => [Arg.record (c.map Prim.bool)]

/-- The flag of the specification: `new` when `options.confnew` is `true`, `old` when the
options are omitted, have no `confnew`, or have `confnew` `false`. -/
def flagOf (opts : Option (Option Bool)) : Str :=
  if opts = some (some true) then "new".toList else "old".toList

/-- The fragment that the specification expects in the command: `--force-confnew` when
`options.confnew` is `true`, `--force-confold` otherwise. -/
def flagFragment (opts : Option (Option Bool)) : Str :=
  "--force-conf".toList ++ flagOf opts

/-- The other one of the two fragments. -/
def otherFragment (opts : Option (Option Bool)) : Str :=
  "--force-conf".toList ++ (if opts = some (some true) then "old".toList else "new".toList)

/-- The command lines among the events of an operation, in order. -/
def commandsRun : List Event → List Str
  | [] => []
  | Event.exec c :: rest => c :: commandsRun rest
  | _ :: rest => commandsRun rest

/-- The calls of the completion callback among the events of an operation, in order. -/
def callbackCalls : List Event → List (Nat × Option ExecError × Option JSObject)
  | [] => []
  | Event.callback f err result :: rest => (f, err, result) :: callbackCalls rest
  | _ :: rest => callbackCalls rest

/-! ## Lemmas on the string primitives -/

theorem split_cons_exists (sep : Char) (s : Str) : ∃ p ps, split sep s = p :: ps := by
  induction s with
  | nil => exact ⟨[], [], rfl⟩
  | cons c cs ih =>
    obtain ⟨p, ps, h⟩ := ih
    by_cases hc : c = sep
    · exact ⟨[], split sep cs, by simp [split, hc]⟩
    · exact ⟨c :: p, ps, by simp [split, hc, h]⟩

theorem split_of_not_mem (sep : Char) (s : Str) (h : sep ∉ s) : split sep s = [s] := by
  induction s with
  | nil => rfl
  | cons c cs ih =>
    have hc : c ≠ sep := fun e => h (by simp [e])
    have hcs : sep ∉ cs := fun e => h (by simp [e])
    simp [split, hc, ih hcs]

theorem split_append_sep (sep : Char) (a b : Str) :
    split sep (a ++ sep :: b) = split sep a ++ split sep b := by
  induction a with
  | nil => simp [split]
  | cons c cs ih =>
    by_cases hc : c = sep
    · simp [split, hc, ← ih]
    · obtain ⟨p, ps, h⟩ := split_cons_exists sep cs
      simp [split, hc, ih, h]

theorem join_split (sep : Char) (s : Str) : join sep (split sep s) = s := by
  induction s with
  | nil => rfl
  | cons c cs ih =>
    obtain ⟨p, ps, h⟩ := split_cons_exists sep cs
    by_cases hc : c = sep
    · simp [split, hc, h, join] at ih ⊢
      exact ih
    · rw [h] at ih
      cases ps with
      | nil => simp [split, hc, h, join] at ih ⊢; exact ih
      | cons q qs => simp [split, hc, h, join] at ih ⊢; exact ih

theorem split_join (sep : Char) (ls : List Str) (hne : ls ≠ []) (h : ∀ l ∈ ls, sep ∉ l) :
    split sep (join sep ls) = ls := by
  induction ls with
  | nil => exact absurd rfl hne
  | cons l rest ih =>
    cases rest with
    | nil => simpa [join] using split_of_not_mem sep l (h l (by simp))
    | cons q qs =>
      have h1 : split sep (join sep (q :: qs)) = q :: qs :=
        ih (by simp) (fun x hx => h x (List.mem_cons_of_mem _ hx))
      simp only [join]
      rw [split_append_sep, h1, split_of_not_mem sep l (h l (by simp))]
      rfl

/-- The pieces of a key line: the key is the text before the first separator and the rest,
joined again, is the text after it. -/
theorem split_key_value (sep : Char) (k v : Str) (hk : sep ∉ k) :
    (split sep (k ++ sep :: v)).head? = some k ∧
    join sep (split sep (k ++ sep :: v)).tail = v := by
  rw [split_append_sep, split_of_not_mem sep k hk]
  exact ⟨rfl, by simpa using join_split sep v⟩

theorem head_split (sep : Char) (s : Str) :
    (split sep s).head? = some (s.takeWhile (fun c => c != sep)) := by
  induction s with
  | nil => rfl
  | cons c cs ih =>
    obtain ⟨p, ps, h⟩ := split_cons_exists sep cs
    by_cases hc : c = sep
    · simp [split, hc]
    · rw [h] at ih
      simp at ih
      simp [split, hc, h, List.takeWhile_cons, ih]

theorem mem_dropWhile {p : Char → Bool} {c : Char} {s : Str} (hc : c ∈ s) (hp : p c = false) :
    c ∈ s.dropWhile p := by
  induction s with
  | nil => cases hc
  | cons d ds ih =>
    by_cases hd : p d = true
    · have : c ∈ ds := by
        rcases List.mem_cons.1 hc with rfl | h
        · rw [hp] at hd; cases hd
        · exact h
      simpa [List.dropWhile_cons, hd] using ih this
    · simpa [List.dropWhile_cons, hd] using hc

theorem dropWhile_eq_nil_of_all {p : Char → Bool} {s : Str} (h : ∀ c ∈ s, p c = true) :
    s.dropWhile p = [] := by
  induction s with
  | nil => rfl
  | cons d ds ih =>
    have hd : p d = true := h d (by simp)
    simpa [List.dropWhile_cons, hd] using ih (fun c hc => h c (List.mem_cons_of_mem _ hc))

/-- The test `!output.trim()` succeeds exactly on texts made of white space only. -/
theorem trim_eq_nil_iff (s : Str) : trim s = [] ↔ ∀ c ∈ s, isTrimChar c = true := by
  constructor
  · intro h c hc
    by_contra hn
    have hf : isTrimChar c = false := by simpa using hn
    have h1 : c ∈ s.dropWhile isTrimChar := mem_dropWhile hc hf
    have h2 : c ∈ (s.dropWhile isTrimChar).reverse.dropWhile isTrimChar :=
      mem_dropWhile (List.mem_reverse.2 h1) hf
    have h3 : c ∈ trim s := List.mem_reverse.2 h2
    rw [h] at h3
    cases h3
  · intro h
    simp [trim, dropWhile_eq_nil_of_all h]

/-! ## Lemmas on dictionaries -/

theorem getOwn_put (o : JSObject) (k v k' : Str) :
    (o.put k v).getOwn k' = if k = k' then some v else o.getOwn k' := by
  induction o with
  | nil => simp [JSObject.put, JSObject.getOwn]
  | cons e rest ih =>
    obtain ⟨a, b⟩ := e
    by_cases h : a = k
    · subst h
      by_cases h2 : a = k' <;> simp [JSObject.put, JSObject.getOwn, h2]
    · by_cases h2 : a = k'
      · subst h2
        have : ¬ k = a := fun e => h e.symm
        simp [JSObject.put, JSObject.getOwn, h, this]
      · simp [JSObject.put, JSObject.getOwn, h, h2, ih]

theorem getOwn_set (o : JSObject) (k v k' : Str) :
    (o.set k v).getOwn k' = if k = k' ∧ k ≠ protoKey then some v else o.getOwn k' := by
  unfold JSObject.set
  by_cases h : k = protoKey
  · simp [h]
  · simp [h, getOwn_put]

theorem mem_keys_put (o : JSObject) (k v k' : Str) :
    k' ∈ (o.put k v).keys ↔ k' = k ∨ k' ∈ o.keys := by
  induction o with
  | nil => simp [JSObject.put, JSObject.keys]
  | cons e rest ih =>
    obtain ⟨a, b⟩ := e
    by_cases h : a = k
    · subst h
      simp [JSObject.put, JSObject.keys]
    · simp only [JSObject.keys] at ih
      simp [JSObject.put, JSObject.keys, h, ih]
      tauto

theorem mem_keys_set (o : JSObject) (k v k' : Str) :
    k' ∈ (o.set k v).keys ↔ (k' = k ∧ k ≠ protoKey) ∨ k' ∈ o.keys := by
  unfold JSObject.set
  by_cases h : k = protoKey
  · simp [h]
  · simp [h, mem_keys_put]

theorem put_of_not_mem (o : JSObject) (k v : Str) (h : k ∉ o.keys) :
    o.put k v = o ++ [(k, v)] := by
  induction o with
  | nil => rfl
  | cons e rest ih =>
    obtain ⟨a, b⟩ := e
    have h1 : a ≠ k := fun e => h (by simp [JSObject.keys, e])
    have h2 : k ∉ JSObject.keys rest := fun e => h (by
      simp only [JSObject.keys, List.map_cons, List.mem_cons] at e ⊢
      exact Or.inr e)
    simp [JSObject.put, h1, ih h2]

theorem mem_keys_iff (o : JSObject) (k : Str) : k ∈ o.keys ↔ ∃ v, o.getOwn k = some v := by
  induction o with
  | nil => simp [JSObject.keys, JSObject.getOwn]
  | cons e rest ih =>
    obtain ⟨a, b⟩ := e
    simp only [JSObject.keys] at ih
    by_cases h : a = k
    · simp [JSObject.keys, JSObject.getOwn, h]
    · have h' : ¬ k = a := fun e => h e.symm
      simp [JSObject.keys, JSObject.getOwn, h, h', ih]

/-! ## Lemmas on the loop of `_parseOutput` -/

theorem parseLine_key (st : ParseState) (line : Str) (h : line.head? ≠ some ' ') :
    parseLine st line =
      { parsed := applyKey st
        currKey := some (keyPart line)
        currValue := trim (join ':' (split ':' line).tail) } := by
  simp [parseLine, h, head_split, keyPart]

theorem parseLine_cont (st : ParseState) (line : Str) (h : line.head? = some ' ') :
    parseLine st line = { st with currValue := st.currValue ++ fragment line } := by
  unfold parseLine fragment
  by_cases h2 : line = [' ', '.']
  · simp [h, h2]
  · have h3 : ¬ line = " .".toList := h2
    simp [h, h2, h3]

theorem applyKey_eq (st : ParseState) :
    applyKey st =
      match st.currKey with
      | none => st.parsed
      | some k => if k = [] then st.parsed else st.parsed.set k st.currValue := by
  unfold applyKey keyTruthy
  cases st.currKey with
  | none => rfl
  | some k => cases k <;> simp

theorem keyPart_fieldLine (kv : Str × Str) (h : ':' ∉ kv.1) : keyPart (fieldLine kv) = kv.1 := by
  have := (split_key_value ':' kv.1 kv.2 h).1
  rw [head_split] at this
  simpa [keyPart, fieldLine] using this

theorem head_fieldLine (kv : Str × Str) (hne : kv.1 ≠ []) (h : kv.1.head? ≠ some ' ') :
    (fieldLine kv).head? ≠ some ' ' := by
  obtain ⟨k, v⟩ := kv
  cases k with
  | nil => exact absurd rfl hne
  | cons c cs => simpa [fieldLine] using h

theorem parseLine_fieldLine (st : ParseState) (kv : Str × Str) (hne : kv.1 ≠ [])
    (hsp : kv.1.head? ≠ some ' ') (hc : ':' ∉ kv.1) :
    parseLine st (fieldLine kv) =
      { parsed := applyKey st, currKey := some kv.1, currValue := trim kv.2 } := by
  rw [parseLine_key st _ (head_fieldLine kv hne hsp), keyPart_fieldLine kv hc]
  have := (split_key_value ':' kv.1 kv.2 hc).2
  simp only [fieldLine]
  rw [this]

/-- Continuation lines only extend the current value. -/
theorem foldl_continuations (st : ParseState) (cs : List Str)
    (h : ∀ c ∈ cs, c.head? = some ' ') :
    cs.foldl parseLine st =
      { st with currValue := cs.foldl (fun acc c => acc ++ fragment c) st.currValue } := by
  induction cs generalizing st with
  | nil => rfl
  | cons c rest ih =>
    have hc := h c (by simp)
    simp only [List.foldl_cons]
    rw [parseLine_cont st c hc, ih _ (fun x hx => h x (List.mem_cons_of_mem _ hx))]

/-- Field lines with fresh, pairwise distinct keys are appended to the result in order. -/
theorem foldl_fieldLines (st : ParseState) (kvs : List (Str × Str))
    (hk : ∀ kv ∈ kvs, kv.1 ≠ [] ∧ kv.1.head? ≠ some ' ' ∧ ':' ∉ kv.1 ∧ kv.1 ≠ protoKey)
    (hfresh : ∀ kv ∈ kvs, kv.1 ∉ (applyKey st).keys)
    (hd : (kvs.map Prod.fst).Nodup) :
    applyKey ((kvs.map fieldLine).foldl parseLine st) =
      applyKey st ++ kvs.map (fun kv => (kv.1, trim kv.2)) := by
  induction kvs generalizing st with
  | nil => simp
  | cons kv rest ih =>
    obtain ⟨h1, h2, h3, h4⟩ := hk kv (by simp)
    have hd' : kv.1 ∉ rest.map Prod.fst ∧ (rest.map Prod.fst).Nodup :=
      List.nodup_cons.1 hd
    simp only [List.map_cons, List.foldl_cons]
    rw [parseLine_fieldLine st kv h1 h2 h3]
    have happ : applyKey { parsed := applyKey st, currKey := some kv.1, currValue := trim kv.2 }
        = applyKey st ++ [(kv.1, trim kv.2)] := by
      rw [applyKey_eq]
      simp only [h1, if_false, JSObject.set, h4]
      exact put_of_not_mem _ _ _ (hfresh kv (by simp))
    rw [ih _ (fun x hx => hk x (List.mem_cons_of_mem _ hx)) ?_ hd'.2, happ]
    · simp
    · intro x hx
      rw [happ]
      have hx1 : x.1 ∉ (applyKey st).keys := hfresh x (List.mem_cons_of_mem _ hx)
      have hx2 : x.1 ≠ kv.1 := by
        intro e
        exact hd'.1 (e ▸ List.mem_map_of_mem Prod.fst hx)
      simp only [JSObject.keys, List.map_append, List.mem_append, List.map_cons, List.map_nil,
        List.mem_singleton] at hx1 ⊢
      rintro (h | h)
      · exact hx1 h
      · exact hx2 h

theorem isTrimChar_colon : isTrimChar ':' = false := by decide

theorem parseOutput_of_allWhite (s : Str) (h : allWhite s) : _parseOutput s = [] := by
  simp [_parseOutput, (trim_eq_nil_iff s).2 h]

theorem parseOutput_of_not_allWhite (s : Str) (h : ¬ allWhite s) :
    _parseOutput s = applyKey ((split '\n' s).foldl parseLine initState) := by
  have : trim s ≠ [] := fun e => h ((trim_eq_nil_iff s).1 e)
  simp [_parseOutput, this]

theorem not_allWhite_of_colon (s : Str) (h : ':' ∈ s) : ¬ allWhite s := by
  intro hw
  have := hw ':' h
  rw [isTrimChar_colon] at this
  cases this

theorem mem_keys_applyKey (st : ParseState) (p : Str) :
    p ∈ (applyKey st).keys ↔
      p ∈ st.parsed.keys ∨ (st.currKey = some p ∧ p ≠ [] ∧ p ≠ protoKey) := by
  rw [applyKey_eq]
  cases hk : st.currKey with
  | none => simp
  | some k =>
    by_cases hk0 : k = []
    · subst hk0
      simp only [if_true, Option.some.injEq]
      constructor
      · exact Or.inl
      · rintro (h | ⟨h1, h2, _⟩)
        · exact h
        · exact absurd h1.symm h2
    · simp only [hk0, if_false, mem_keys_set, Option.some.injEq]
      constructor
      · rintro (⟨h1, h2⟩ | h)
        · subst h1
          exact Or.inr ⟨rfl, hk0, h2⟩
        · exact Or.inl h
      · rintro (h | ⟨h1, _, h3⟩)
        · exact Or.inr h
        · subst h1
          exact Or.inl ⟨rfl, h3⟩

theorem getOwn_applyKey (st : ParseState) (k : Str) :
    (applyKey st).getOwn k =
      if st.currKey = some k ∧ k ≠ [] ∧ k ≠ protoKey then some st.currValue
      else st.parsed.getOwn k := by
  rw [applyKey_eq]
  cases hk : st.currKey with
  | none => simp
  | some k0 =>
    by_cases hk0 : k0 = []
    · subst hk0
      by_cases h : k = []
      · simp [h]
      · have : ¬ ([] : Str) = k := fun e => h e.symm
        simp [this]
    · simp only [hk0, if_false, getOwn_set, Option.some.injEq]
      by_cases h : k0 = k
      · subst h
        simp [hk0]
      · simp [h]

/-- The keys of the result of the loop: those already there, and the non-empty key parts of
the lines that do not start with a space. -/
theorem mem_keys_foldl (st : ParseState) (lines : List Str) (p : Str) :
    p ∈ (applyKey (lines.foldl parseLine st)).keys ↔
      p ∈ (applyKey st).keys ∨
      (p ≠ [] ∧ p ≠ protoKey ∧ ∃ l ∈ lines, l.head? ≠ some ' ' ∧ keyPart l = p) := by
  induction lines generalizing st with
  | nil => simp
  | cons l rest ih =>
    simp only [List.foldl_cons]
    rw [ih]
    by_cases hl : l.head? = some ' '
    · rw [parseLine_cont st l hl]
      have : ∀ q, q ∈ (applyKey { st with currValue := st.currValue ++ fragment l }).keys ↔
          q ∈ (applyKey st).keys := by
        intro q
        rw [mem_keys_applyKey, mem_keys_applyKey]
      rw [this]
      constructor
      · rintro (h | ⟨h1, h2, l', hl', h3, h4⟩)
        · exact Or.inl h
        · exact Or.inr ⟨h1, h2, l', List.mem_cons_of_mem _ hl', h3, h4⟩
      · rintro (h | ⟨h1, h2, l', hl', h3, h4⟩)
        · exact Or.inl h
        · rcases List.mem_cons.1 hl' with rfl | hm
          · exact absurd hl h3
          · exact Or.inr ⟨h1, h2, l', hm, h3, h4⟩
    · rw [parseLine_key st l hl, mem_keys_applyKey]
      constructor
      · rintro ((h | ⟨h1, h2, h3⟩) | ⟨h1, h2, l', hl', h3, h4⟩)
        · exact Or.inl h
        · exact Or.inr ⟨h2, h3, l, by simp, hl, (Option.some.inj h1)⟩
        · exact Or.inr ⟨h1, h2, l', List.mem_cons_of_mem _ hl', h3, h4⟩
      · rintro (h | ⟨h1, h2, l', hl', h3, h4⟩)
        · exact Or.inl (Or.inl h)
        · rcases List.mem_cons.1 hl' with rfl | hm
          · exact Or.inl (Or.inr ⟨by rw [h4], h1, h2⟩)
          · exact Or.inr ⟨h1, h2, l', hm, h3, h4⟩

/-- Lines whose key part is not `k` leave the field `k` alone. -/
theorem getOwn_foldl_other (k : Str) (st : ParseState) (lines : List Str)
    (hst : st.currKey ≠ some k)
    (h : ∀ l ∈ lines, l.head? ≠ some ' ' → keyPart l ≠ k) :
    (applyKey (lines.foldl parseLine st)).getOwn k = st.parsed.getOwn k := by
  induction lines generalizing st with
  | nil => simp [getOwn_applyKey, hst]
  | cons l rest ih =>
    simp only [List.foldl_cons]
    have hrest : ∀ x ∈ rest, x.head? ≠ some ' ' → keyPart x ≠ k :=
      fun x hx => h x (List.mem_cons_of_mem _ hx)
    by_cases hl : l.head? = some ' '
    · rw [parseLine_cont st l hl]
      exact ih _ hst hrest
    · rw [parseLine_key st l hl]
      have hk : keyPart l ≠ k := h l (by simp) hl
      rw [ih _ (by simpa using hk) hrest]
      simp [getOwn_applyKey, hst]

theorem sub_applyKey (st1 st2 : ParseState) (h : Agree st1 st2) :
    (applyKey st1).Sub (applyKey st2) := by
  intro k v
  rcases h with ⟨h1, h2⟩ | ⟨h1, h2, h3⟩
  · have : applyKey st1 = [] := by
      unfold applyKey
      cases hk : st1.currKey with
      | none => exact h1
      | some k0 => rw [hk] at h2; simp [h2, h1]
    rw [this]
    intro hv
    cases hv
  · rw [getOwn_applyKey, getOwn_applyKey, h2, h3]
    by_cases hc : st2.currKey = some k ∧ k ≠ [] ∧ k ≠ protoKey
    · simp [hc]
    · simp only [hc, if_false]
      exact h1 k v

theorem agree_parseLine (st1 st2 : ParseState) (line : Str) (h : Agree st1 st2) :
    Agree (parseLine st1 line) (parseLine st2 line) := by
  by_cases hl : line.head? = some ' '
  · rw [parseLine_cont st1 line hl, parseLine_cont st2 line hl]
    rcases h with ⟨h1, h2⟩ | ⟨h1, h2, h3⟩
    · exact Or.inl ⟨h1, h2⟩
    · exact Or.inr ⟨h1, h2, by simp [h3]⟩
  · rw [parseLine_key st1 line hl, parseLine_key st2 line hl]
    exact Or.inr ⟨sub_applyKey st1 st2 h, rfl, rfl⟩

theorem agree_foldl (lines : List Str) (st1 st2 : ParseState) (h : Agree st1 st2) :
    Agree (lines.foldl parseLine st1) (lines.foldl parseLine st2) := by
  induction lines generalizing st1 st2 with
  | nil => exact h
  | cons l rest ih => exact ih _ _ (agree_parseLine st1 st2 l h)

/-! ## The stanza parser: field lines (C1) -/

/-- Field lines `K1:V1`, ..., `Kn:Vn` joined by line feeds, with or without one trailing line
feed, parse to exactly the fields `Ki ↦ trim Vi`, in order, when the keys are non-empty,
pairwise distinct, free of colons and line feeds, do not start with a space and are not
`__proto__`, and the values are free of line feeds. -/
theorem parseOutput_fieldLines (kvs : List (Str × Str)) (trailing : Bool) (hne : kvs ≠ [])
    (hk : ∀ kv ∈ kvs, kv.1 ≠ [] ∧ kv.1.head? ≠ some ' ' ∧ ':' ∉ kv.1 ∧ '\n' ∉ kv.1 ∧
      '\n' ∉ kv.2 ∧ kv.1 ≠ protoKey)
    (hd : (kvs.map Prod.fst).Nodup) :
    _parseOutput (join '\n' (kvs.map fieldLine) ++ (if trailing then ['\n'] else [])) =
      kvs.map (fun kv => (kv.1, trim kv.2)) := by
  have hlines : split '\n' (join '\n' (kvs.map fieldLine)) = kvs.map fieldLine := by
    apply split_join
    · simpa using hne
    · intro l hl
      obtain ⟨kv, hkv, rfl⟩ := List.mem_map.1 hl
      obtain ⟨_, _, _, h4, h5, _⟩ := hk kv hkv
      simp only [fieldLine, List.mem_append, List.mem_cons]
      rintro (h | h | h)
      · exact h4 h
      · cases h
      · exact h5 h
  have hcolon : ':' ∈ join '\n' (kvs.map fieldLine) ++ (if trailing then ['\n'] else []) := by
    cases kvs with
    | nil => exact absurd rfl hne
    | cons kv rest =>
      apply List.mem_append_left
      have : ':' ∈ fieldLine kv := by simp [fieldLine]
      cases rest with
      | nil => simpa [join] using this
      | cons q qs =>
        simp only [List.map_cons, join]
        exact List.mem_append_left _ this
  have hcore : applyKey ((kvs.map fieldLine).foldl parseLine initState) =
      kvs.map (fun kv => (kv.1, trim kv.2)) := by
    have := foldl_fieldLines initState kvs
      (fun kv hkv => by
        obtain ⟨h1, h2, h3, _, _, h6⟩ := hk kv hkv
        exact ⟨h1, h2, h3, h6⟩)
      (fun kv _ => by simp [applyKey, initState, JSObject.keys]) hd
    simpa [applyKey, initState] using this
  rw [parseOutput_of_not_allWhite _ (not_allWhite_of_colon _ hcolon)]
  cases trailing with
  | false => simpa [hlines] using hcore
  | true =>
    simp only [if_true]
    rw [split_append_sep, hlines, List.foldl_append]
    have : split '\n' ([] : Str) = [[]] := rfl
    rw [this]
    simp only [List.foldl_cons, List.foldl_nil]
    rw [parseLine_key _ [] (by simp), applyKey_eq]
    simpa [keyPart] using hcore

/-- The witness of the specification: `Package: redis-server\nVersion: 1.0\n` parses to
`{Package: 'redis-server', Version: '1.0'}`. -/
theorem parseOutput_redis :
    _parseOutput "Package: redis-server\nVersion: 1.0\n".toList =
      [("Package".toList, "redis-server".toList), ("Version".toList, "1.0".toList)] := by
  decide

/-- C1, at the key `__proto__`: the line `__proto__: x` is a field line whose key is non-empty,
has no colon or line feed and does not start with a space, so the claim promises the result
`{__proto__: 'x'}`; the code returns a dictionary without any field, because
`parsed['__proto__'] = 'x'` creates no property. -/
theorem parseOutput_proto_field_lost :
    protoKey ≠ [] ∧ ':' ∉ protoKey ∧ '\n' ∉ protoKey ∧ protoKey.head? ≠ some ' ' ∧
    '\n' ∉ " x".toList ∧
    join '\n' ([(protoKey, " x".toList)].map fieldLine) = "__proto__: x".toList ∧
    _parseOutput "__proto__: x".toList = [] ∧
    (_parseOutput "__proto__: x".toList).getOwn protoKey ≠ some (trim " x".toList) := by
  decide

/-! ## The stanza parser: continuation lines (C2) -/

/-- A field line `K:V` followed by continuation lines `c1`, ..., `cn` parses to the single
field `K ↦ trim V ++ fragment c1 ++ ... ++ fragment cn`, when the key is non-empty, free of
colons and line feeds, does not start with a space and is not `__proto__`. -/
theorem parseOutput_continuations (K V : Str) (cs : List Str)
    (hK : K ≠ []) (hsp : K.head? ≠ some ' ') (hcolon : ':' ∉ K) (hnl : '\n' ∉ K)
    (hV : '\n' ∉ V) (hproto : K ≠ protoKey)
    (hcs : ∀ c ∈ cs, c.head? = some ' ' ∧ '\n' ∉ c) :
    _parseOutput (join '\n' (fieldLine (K, V) :: cs)) =
      [(K, cs.foldl (fun acc c => acc ++ fragment c) (trim V))] := by
  have hlines : split '\n' (join '\n' (fieldLine (K, V) :: cs)) = fieldLine (K, V) :: cs := by
    apply split_join _ _ (by simp)
    intro l hl
    rcases List.mem_cons.1 hl with rfl | h
    · simp only [fieldLine, List.mem_append, List.mem_cons]
      rintro (h | h | h)
      · exact hnl h
      · cases h
      · exact hV h
    · exact (hcs l h).2
  have hc : ':' ∈ join '\n' (fieldLine (K, V) :: cs) := by
    have : ':' ∈ fieldLine (K, V) := by simp [fieldLine]
    cases cs with
    | nil => simpa [join] using this
    | cons q qs =>
      simp only [join]
      exact List.mem_append_left _ this
  rw [parseOutput_of_not_allWhite _ (not_allWhite_of_colon _ hc), hlines]
  simp only [List.foldl_cons]
  rw [parseLine_fieldLine initState (K, V) hK hsp hcolon,
    foldl_continuations _ cs (fun c h => (hcs c h).1), applyKey_eq]
  simp [hK, JSObject.set, hproto, applyKey, initState, JSObject.put]

/-- The witnesses of the specification: `Description: a\n b` gives `{Description: 'ab'}` and
`Description: a\n .\n b` gives `{Description: 'a\n\nb'}`. -/
theorem parseOutput_description :
    _parseOutput "Description: a\n b".toList = [("Description".toList, "ab".toList)] ∧
    _parseOutput "Description: a\n .\n b".toList =
      [("Description".toList, "a\n\nb".toList)] := by
  decide

/-- C2, at the key `__proto__`: `__proto__: a` followed by the continuation line ` b` is an
input of the claimed shape, for which the claim promises `{__proto__: 'ab'}`; the code
returns a dictionary without any field. -/
theorem parseOutput_proto_continuation_lost :
    protoKey ≠ [] ∧ ':' ∉ protoKey ∧ '\n' ∉ protoKey ∧ protoKey.head? ≠ some ' ' ∧
    (∀ c ∈ [" b".toList], c.head? = some ' ' ∧ '\n' ∉ c) ∧
    join '\n' (fieldLine (protoKey, " a".toList) :: [" b".toList]) = "__proto__: a\n b".toList ∧
    _parseOutput "__proto__: a\n b".toList = [] ∧
    _parseOutput "__proto__: a\n b".toList ≠
      [(protoKey, [" b".toList].foldl (fun acc c => acc ++ fragment c) (trim " a".toList))] := by
  decide

/-! ## The stanza parser: lines without a colon (C7) -/

theorem keyPart_of_no_colon (L : Str) (h : ':' ∉ L) : keyPart L = L := by
  have h1 := head_split ':' L
  rw [split_of_not_mem ':' L h] at h1
  simpa [keyPart] using h1.symm

/-- C7 as stated fails at the empty line: in the text `a\n` the second line is empty, so it
does not start with a space, has no colon, is followed by no line and is no later line's
key; yet the result has no field named by the empty string. -/
theorem parseOutput_empty_line_no_key :
    ¬ (∀ (text : Str) (pre post : List Str) (L : Str),
        ¬ allWhite text → split '\n' text = pre ++ L :: post →
        L.head? ≠ some ' ' → ':' ∉ L →
        (∀ l, post.head? = some l → l.head? ≠ some ' ') →
        (∀ l ∈ post, l.head? ≠ some ' ' → keyPart l ≠ L) →
        (_parseOutput text).getOwn L = some []) := by
  intro h
  have := h "a\n".toList ["a".toList] [] [] (by decide) (by decide) (by decide) (by decide)
    (by simp) (by simp)
  revert this
  decide

/-- C7, amended: in a text that is not white space only, a non-empty line `L` other than
`__proto__` that does not start with a space and has no colon, is not directly followed by a
line starting with a space, and is not the key part of a later line that does not start with
a space, is a key of the result of `_parseOutput`, with the empty string as its value. -/
theorem parseOutput_line_without_colon (text : Str) (pre post : List Str) (L : Str)
    (hw : ¬ allWhite text) (hsplit : split '\n' text = pre ++ L :: post)
    (hne : L ≠ []) (hproto : L ≠ protoKey)
    (hsp : L.head? ≠ some ' ') (hcolon : ':' ∉ L)
    (hnext : ∀ l, post.head? = some l → l.head? ≠ some ' ')
    (hlater : ∀ l ∈ post, l.head? ≠ some ' ' → keyPart l ≠ L) :
    (_parseOutput text).getOwn L = some [] ∧ L ∈ (_parseOutput text).keys := by
  have hval : (_parseOutput text).getOwn L = some [] := by
    rw [parseOutput_of_not_allWhite text hw, hsplit, List.foldl_append, List.foldl_cons,
      parseLine_key _ L hsp, keyPart_of_no_colon L hcolon, split_of_not_mem ':' L hcolon]
    have htrim : trim (join ':' ([L] : List Str).tail) = [] := rfl
    rw [htrim]
    cases post with
    | nil => simp [getOwn_applyKey, hne, hproto]
    | cons l rest =>
      have hl : l.head? ≠ some ' ' := hnext l rfl
      have hkl : keyPart l ≠ L := hlater l (by simp) hl
      rw [List.foldl_cons, parseLine_key _ l hl,
        getOwn_foldl_other L _ rest (by simpa using hkl)
          (fun x hx => hlater x (List.mem_cons_of_mem _ hx))]
      simp [getOwn_applyKey, hne, hproto]
  exact ⟨hval, (mem_keys_iff _ _).2 ⟨[], hval⟩⟩

/-- The witness of the specification: `Status` parses to `{Status: ''}`. -/
theorem parseOutput_line_without_colon_witness :
    (_parseOutput "Status".toList).getOwn "Status".toList = some [] ∧
    "Status".toList ∈ (_parseOutput "Status".toList).keys :=
  parseOutput_line_without_colon "Status".toList [] [] "Status".toList
    (by decide) (by decide) (by decide) (by decide) (by decide) (by decide)
    (by simp) (by simp)

/-! ## The stanza parser: last write wins (C8) -/

/-- C8: for all texts `s1` and `s2`, every field of `_parseOutput s2` is a field of
`_parseOutput (s1 ++ "\n" ++ s2)` with the same value, whatever `s1` holds for its key. -/
theorem parseOutput_last_write_wins (s1 s2 k v : Str)
    (h : (_parseOutput s2).getOwn k = some v) :
    (_parseOutput (s1 ++ '\n' :: s2)).getOwn k = some v := by
  have hw2 : ¬ allWhite s2 := by
    intro hw
    rw [parseOutput_of_allWhite s2 hw] at h
    cases h
  have hw : ¬ allWhite (s1 ++ '\n' :: s2) := by
    intro hw
    exact hw2 (fun c hc => hw c (List.mem_append_right _ (List.mem_cons_of_mem _ hc)))
  rw [parseOutput_of_not_allWhite s2 hw2] at h
  rw [parseOutput_of_not_allWhite _ hw, split_append_sep, List.foldl_append]
  have hag : Agree initState ((split '\n' s1).foldl parseLine initState) :=
    Or.inl ⟨rfl, rfl⟩
  exact sub_applyKey _ _ (agree_foldl (split '\n' s2) _ _ hag) k v h

/-- A repeated key takes the value of the second stanza. -/
theorem parseOutput_last_write_wins_witness :
    (_parseOutput ("Package: a\nVersion: 1.0".toList ++ '\n' :: "Version: 2.0".toList)).getOwn
      "Version".toList = some "2.0".toList :=
  parseOutput_last_write_wins "Package: a\nVersion: 1.0".toList "Version: 2.0".toList
    "Version".toList "2.0".toList (by decide)

/-! ## The stanza parser: the key set (C10) -/

/-- The keys of the result of `_parseOutput`: none for a text of white space only; otherwise
exactly the non-empty key parts, other than `__proto__`, of the lines that do not start with
a space. -/
theorem keys_parseOutput (text p : Str) :
    p ∈ (_parseOutput text).keys ↔
      ¬ allWhite text ∧ p ≠ [] ∧ p ≠ protoKey ∧
        ∃ l ∈ split '\n' text, l.head? ≠ some ' ' ∧ keyPart l = p := by
  by_cases hw : allWhite text
  · simp [parseOutput_of_allWhite text hw, hw, JSObject.keys]
  · rw [parseOutput_of_not_allWhite text hw, mem_keys_foldl]
    simp [hw, applyKey, initState, JSObject.keys]

/-- Continuation lines met while no field is open (before the first field line, or after a
line with an empty key part such as an empty line) change neither the result nor what the
next field line does. -/
theorem continuations_without_field (st : ParseState) (cs : List Str) (l : Str)
    (hst : keyTruthy st.currKey = false) (hcs : ∀ c ∈ cs, c.head? = some ' ')
    (hl : l.head? ≠ some ' ') :
    applyKey (cs.foldl parseLine st) = applyKey st ∧
    parseLine (cs.foldl parseLine st) l = parseLine st l := by
  have happ : applyKey (cs.foldl parseLine st) = applyKey st := by
    rw [foldl_continuations st cs hcs]
    unfold applyKey
    cases hk : st.currKey with
    | none => rfl
    | some k => rw [hk] at hst; simp [hst]
  refine ⟨happ, ?_⟩
  rw [parseLine_key _ l hl, parseLine_key _ l hl, happ]

/-- No key of the result is empty, starts with a space, or contains a colon or a line
feed. -/
theorem keys_parseOutput_shape (text p : Str) (h : p ∈ (_parseOutput text).keys) :
    p ≠ [] ∧ p.head? ≠ some ' ' ∧ ':' ∉ p ∧ '\n' ∉ p := by
  obtain ⟨_, h1, _, l, hl, h2, h3⟩ := (keys_parseOutput text p).1 h
  refine ⟨h1, ?_, ?_, ?_⟩
  · subst h3
    cases l with
    | nil => simp [keyPart]
    | cons c cs =>
      have hc : c ≠ ' ' := by simpa using h2
      by_cases hcc : c = ':'
      · simp [keyPart, List.takeWhile_cons, hcc]
      · simp [keyPart, List.takeWhile_cons, hcc, hc]
  · subst h3
    intro hm
    have := List.mem_takeWhile_imp hm
    simp at this
  · subst h3
    intro hm
    have hml : '\n' ∈ l := (List.takeWhile_sublist _).subset hm
    have key : ∀ (t : Str), ∀ x ∈ split '\n' t, '\n' ∉ x := by
      intro t
      induction t with
      | nil => intro x hx; simp [split] at hx; subst hx; simp
      | cons c cs ih =>
        obtain ⟨q, qs, hq⟩ := split_cons_exists '\n' cs
        intro x hx
        by_cases hc : c = '\n'
        · simp only [split, hc, if_true, List.mem_cons] at hx
          rcases hx with rfl | hx
          · simp
          · exact ih x hx
        · simp only [split, hc, if_false, hq, List.mem_cons] at hx
          rcases hx with rfl | hx
          · have hqn := ih q (by simp [hq])
            intro hm2
            rcases List.mem_cons.1 hm2 with e | e
            · exact hc e.symm
            · exact hqn e
          · exact ih x (by simp [hq, hx])
    exact key text l hl hml

/-- C10, at the key `__proto__`: in the text `__proto__: a\nVersion: 1` the first line does
not start with a space and the part before its first colon is the non-empty string
`__proto__`, so the claim puts `__proto__` in the key set; the keys of the result are
`Version` alone. -/
theorem parseOutput_proto_key_missing :
    ¬ allWhite "__proto__: a\nVersion: 1".toList ∧
    "__proto__: a".toList ∈ split '\n' "__proto__: a\nVersion: 1".toList ∧
    "__proto__: a".toList.head? ≠ some ' ' ∧
    keyPart "__proto__: a".toList = protoKey ∧ protoKey ≠ [] ∧
    (_parseOutput "__proto__: a\nVersion: 1".toList).keys = ["Version".toList] ∧
    protoKey ∉ (_parseOutput "__proto__: a\nVersion: 1".toList).keys := by
  decide

/-! ## The alias table (C6) -/

theorem path_read (tbl : JSObject) (a : Str) :
    path tbl a none =
      (match tbl.getOwn a with
        | some v => if v = [] then JSVal.str a else JSVal.str v
        | none => if a ∈ objectPrototypeKeys then JSVal.inherited a else JSVal.str a,
       tbl) := by
  cases h : tbl.getOwn a with
  | none => by_cases h2 : a ∈ objectPrototypeKeys <;> simp [path, JSObject.get, h, h2, JSVal.truthy]
  | some v => cases v <;> simp [path, JSObject.get, h, JSVal.truthy, strTruthy]

theorem path_write (tbl : JSObject) (a p : Str) (hp : p ≠ []) :
    (path tbl a (some p)).2 = tbl.set a p := by
  cases p with
  | nil => exact absurd rfl hp
  | cons c cs => simp [path, strTruthy]

theorem getOwn_path_other (tbl : JSObject) (a : Str) (c : Str × Option Str)
    (h : c.1 = a → c.2 = none) : (path tbl c.1 c.2).2.getOwn a = tbl.getOwn a := by
  obtain ⟨b, q⟩ := c
  cases q with
  | none => rfl
  | some q =>
    have hb : b ≠ a := fun e => by simpa using h e
    by_cases hq : strTruthy q = true
    · simp [path, hq, getOwn_set, hb]
    · simp [path, hq]

theorem getOwn_pathCalls (tbl : JSObject) (a : Str) (calls : List (Str × Option Str))
    (h : ∀ c ∈ calls, c.1 = a → c.2 = none) : (pathCalls tbl calls).getOwn a = tbl.getOwn a := by
  induction calls generalizing tbl with
  | nil => rfl
  | cons c rest ih =>
    simp only [pathCalls, List.foldl_cons]
    have := ih (path tbl c.1 c.2).2 (fun x hx => h x (List.mem_cons_of_mem _ hx))
    simp only [pathCalls] at this
    rw [this, getOwn_path_other tbl a c (h c (by simp))]

/-- C6 as stated fails at the empty path string: `path('dpkg', '')` on the empty table
records nothing and returns `'dpkg'`, and so does the call `path('dpkg')` after it. -/
theorem path_empty_string_not_recorded :
    ¬ (∀ (tbl : JSObject) (a p : Str),
        (path tbl a (some p)).1 = JSVal.str p ∧
        (path (path tbl a (some p)).2 a none).1 = JSVal.str p) := by
  intro h
  have := (h [] "dpkg".toList []).1
  revert this
  decide

/-- C6, amended: for every alias `a` other than `__proto__` and every non-empty path string
`p`, the call `path(a, p)` returns `p`, and after it `path(a)` returns `p`, also after later
calls of `path` that set no path for `a`, so that `p` is the text the command builders
splice in; and for every alias `b` that is no member name of `Object.prototype` and has been
given no path by any call since the empty table, `path(b)` returns `b` and leaves the table
as it is. -/
theorem path_set_get (render : Str → Str) (tbl : JSObject) (a p b : Str)
    (later calls : List (Str × Option Str))
    (hp : p ≠ []) (ha : a ≠ protoKey)
    (hlater : ∀ c ∈ later, c.1 = a → c.2 = none)
    (hb : b ∉ objectPrototypeKeys)
    (hcalls : ∀ c ∈ calls, c.1 = b → c.2 = none) :
    (path tbl a (some p)).1 = JSVal.str p ∧
    (path (pathCalls (path tbl a (some p)).2 later) a none).1 = JSVal.str p ∧
    formatS render (path (pathCalls (path tbl a (some p)).2 later) a none).1 = p ∧
    path (pathCalls [] calls) b none = (JSVal.str b, pathCalls [] calls) := by
  have hown : ((path tbl a (some p)).2).getOwn a = some p := by
    rw [path_write tbl a p hp, getOwn_set]
    simp [ha]
  have h1 : (path tbl a (some p)).1 = JSVal.str p := by
    have h := hown
    rw [path_write tbl a p hp] at h
    cases p with
    | nil => exact absurd rfl hp
    | cons c cs => simp [path, strTruthy, JSObject.get, h, JSVal.truthy]
  have h2 : (path (pathCalls (path tbl a (some p)).2 later) a none).1 = JSVal.str p := by
    rw [path_read, getOwn_pathCalls _ a later hlater, hown]
    simp [hp]
  refine ⟨h1, h2, by rw [h2]; rfl, ?_⟩
  rw [path_read, getOwn_pathCalls _ b calls hcalls]
  simp [JSObject.getOwn, hb]

/-- An override of `dpkg` set on the empty table survives an override of `apt-get`, and the
alias `apt-get` reads as itself after calls that only concern `dpkg`. -/
theorem path_set_get_witness :
    (path [] "dpkg".toList (some "/usr/bin/dpkg".toList)).1 = JSVal.str "/usr/bin/dpkg".toList ∧
    (path (pathCalls (path [] "dpkg".toList (some "/usr/bin/dpkg".toList)).2
      [("apt-get".toList, some "/opt/apt".toList)]) "dpkg".toList none).1
        = JSVal.str "/usr/bin/dpkg".toList ∧
    formatS (fun n => n) (path (pathCalls (path [] "dpkg".toList (some "/usr/bin/dpkg".toList)).2
      [("apt-get".toList, some "/opt/apt".toList)]) "dpkg".toList none).1
        = "/usr/bin/dpkg".toList ∧
    path (pathCalls [] [("dpkg".toList, some "/usr/bin/dpkg".toList)]) "apt-get".toList none =
      (JSVal.str "apt-get".toList, pathCalls [] [("dpkg".toList, some "/usr/bin/dpkg".toList)]) :=
  path_set_get (fun n => n) [] "dpkg".toList "/usr/bin/dpkg".toList "apt-get".toList
    [("apt-get".toList, some "/opt/apt".toList)] [("dpkg".toList, some "/usr/bin/dpkg".toList)]
    (by decide) (by decide) (by decide) (by decide) (by decide)

/-- Aliases that name a member of `Object.prototype` behave differently: `path('toString')`
on the empty table returns the inherited function, not the alias, and `path('__proto__', p)`
records nothing. -/
theorem path_inherited_members :
    (path [] "toString".toList none).1 = JSVal.inherited "toString".toList ∧
    path [] protoKey (some "/bin/p".toList) = (JSVal.inherited protoKey, []) := by
  decide

/-! ## The command line of `install`: the specifier (C4) -/

/-- C4 as stated fails at the empty version string: for `install('redis-server', '', cb)` the
command line does not end with `redis-server=`. -/
theorem install_empty_version_no_suffix :
    ¬ (∀ (render : Str → Str) (tbl : JSObject) (name v : Str) (rest : List Arg),
        List.IsSuffix (name ++ '=' :: v)
          (installCommand render tbl name (Arg.prim (Prim.str v) :: rest))) := by
  intro h
  have := h (fun n => n) [] "redis-server".toList [] [Arg.func 0]
  revert this
  decide

/-- C4, amended: for every package name and every non-empty text value passed as the version
argument, the command line that `install` runs is
`sudo <path('apt-get')> install -y -o Dpkg::Options::="--force-conf<old|new>" <specifier>` with
the specifier `name=version`; when no version argument is passed (the argument after the name
is no text value) the command has the same form with the specifier `name`.  In both cases the
command ends with the specifier. -/
theorem installCommand_specifier (render : Str → Str) (tbl : JSObject) (name : Str)
    (version : Option Str) (rest : List Arg)
    (hv : ∀ v, version = some v → v ≠ [])
    (hrest : version = none → isString (first rest) = false) :
    installCommand render tbl name (versionArgs version ++ rest) =
      "sudo ".toList ++ (formatS render (path tbl "apt-get".toList none).1
        ++ " install -y -o Dpkg::Options::=\"--force-conf".toList
        ++ (installVars name (versionArgs version ++ rest)).forceConf
        ++ "\" ".toList ++ specifier name version) ∧
    ((installVars name (versionArgs version ++ rest)).forceConf = "old".toList ∨
      (installVars name (versionArgs version ++ rest)).forceConf = "new".toList) ∧
    List.IsSuffix (specifier name version)
      (installCommand render tbl name (versionArgs version ++ rest)) := by
  have hname : (installVars name (versionArgs version ++ rest)).name = specifier name version := by
    cases version with
    | some v =>
      have hv' := hv v rfl
      cases v with
      | nil => exact absurd rfl hv'
      | cons c cs => simp [installVars, versionArgs, first, specifier, strTruthy]
    | none =>
      have hr := hrest rfl
      cases hf : first rest with
      | prim q =>
        cases q with
        | str w => rw [hf] at hr; simp [isString] at hr
        | _ => simp [installVars, versionArgs, specifier, hf]
      | func g => simp [installVars, versionArgs, specifier, hf]
      | record r => simp [installVars, versionArgs, specifier, hf]
  have hcmd : installCommand render tbl name (versionArgs version ++ rest) =
      "sudo ".toList ++ (formatS render (path tbl "apt-get".toList none).1
        ++ " install -y -o Dpkg::Options::=\"--force-conf".toList
        ++ (installVars name (versionArgs version ++ rest)).forceConf
        ++ "\" ".toList ++ specifier name version) := by
    rw [← hname]
    rfl
  refine ⟨hcmd, ?_, ?_⟩
  · have : ∀ o, forceConfOf o = "old".toList ∨ forceConfOf o = "new".toList := by
      intro o
      unfold forceConfOf
      by_cases h : (confnewOf o).truthy = true <;> simp [h]
    exact this _
  · rw [hcmd]
    refine ⟨"sudo ".toList ++ (formatS render (path tbl "apt-get".toList none).1
        ++ " install -y -o Dpkg::Options::=\"--force-conf".toList
        ++ (installVars name (versionArgs version ++ rest)).forceConf
        ++ "\" ".toList), ?_⟩
    simp only [List.append_assoc]

/-- The specifier of `install('redis-server', '1.0', cb)` is `redis-server=1.0` and that of
`install('redis-server', cb)` is `redis-server`. -/
theorem installCommand_specifier_witness :
    (installCommand (fun n => n) [] "redis-server".toList
        (versionArgs (some "1.0".toList) ++ [Arg.func 0]) =
      "sudo ".toList ++ (formatS (fun n => n) (path [] "apt-get".toList none).1
        ++ " install -y -o Dpkg::Options::=\"--force-conf".toList
        ++ (installVars "redis-server".toList
              (versionArgs (some "1.0".toList) ++ [Arg.func 0])).forceConf
        ++ "\" ".toList ++ specifier "redis-server".toList (some "1.0".toList)) ∧
    ((installVars "redis-server".toList
        (versionArgs (some "1.0".toList) ++ [Arg.func 0])).forceConf = "old".toList ∨
      (installVars "redis-server".toList
        (versionArgs (some "1.0".toList) ++ [Arg.func 0])).forceConf = "new".toList) ∧
    List.IsSuffix (specifier "redis-server".toList (some "1.0".toList))
      (installCommand (fun n => n) [] "redis-server".toList
        (versionArgs (some "1.0".toList) ++ [Arg.func 0]))) ∧
    installCommand (fun n => n) [] "redis-server".toList [Arg.func 0] =
      "sudo apt-get install -y -o Dpkg::Options::=\"--force-confold\" redis-server".toList :=
  ⟨installCommand_specifier (fun n => n) [] "redis-server".toList (some "1.0".toList)
    [Arg.func 0] (by decide) (by decide), by decide⟩

/-- With the empty string as the version argument the specifier is the bare name. -/
theorem installCommand_empty_version (render : Str → Str) (tbl : JSObject) (name : Str)
    (rest : List Arg) :
    installCommand render tbl name (Arg.prim (Prim.str []) :: rest) =
      "sudo ".toList ++ (formatS render (path tbl "apt-get".toList none).1
        ++ " install -y -o Dpkg::Options::=\"--force-conf".toList
        ++ (installVars name (Arg.prim (Prim.str []) :: rest)).forceConf
        ++ "\" ".toList ++ name) := rfl

/-! ## The configuration flag of `install` and `upgrade` (C5) -/

/-- A text without the separator `c` that occurs in `A ++ c :: B` occurs in `A` or in `B`. -/
theorem infix_append_sep {x A B : Str} {c : Char} (hc : c ∉ x)
    (h : x <:+: A ++ c :: B) : x <:+: A ∨ x <:+: B := by
  obtain ⟨s, t, h⟩ := h
  rw [List.append_assoc] at h
  rcases List.append_eq_append_iff.1 h with ⟨a', hA, h2⟩ | ⟨c', hs, h2⟩
  · rcases List.append_eq_append_iff.1 h2 with ⟨d, ha, _⟩ | ⟨d, hx, h3⟩
    · left
      refine ⟨s, d, ?_⟩
      rw [hA, ha]
      simp
    · cases d with
      | nil =>
        left
        refine ⟨s, [], ?_⟩
        rw [hA, hx]
        simp
      | cons e d' =>
        exfalso
        have he : c = e := by
          have := congrArg List.head? h3
          simpa using this
        apply hc
        rw [hx, he]
        simp
  · cases c' with
    | nil =>
      cases x with
      | nil => exact Or.inl ⟨A, [], by simp⟩
      | cons e x' =>
        exfalso
        have he : c = e := by
          have := congrArg List.head? h2
          simpa using this
        exact hc (by simp [he])
    | cons e c'' =>
      right
      have hB : B = c'' ++ (x ++ t) := by
        have := congrArg List.tail h2
        simpa using this
      exact ⟨c'', t, by rw [hB]; simp⟩

/-- Both fragments are free of spaces. -/
theorem fragments_no_space (opts : Option (Option Bool)) :
    ' ' ∉ flagFragment opts ∧ ' ' ∉ otherFragment opts := by
  rcases opts with _ | _ | _ | _ <;> decide

set_option maxRecDepth 100000 in
/-- C5 as stated fails for a package name that holds a fragment: the command of
`install('x--force-confnew', cb)`, run without options, contains both `--force-confold`, which
the code writes, and `--force-confnew`, which is part of the name. -/
theorem install_name_with_fragment :
    ¬ (∀ (render : Str → Str) (tbl : JSObject) (name : Str) (cb : Nat),
        "--force-confold".toList <:+: installCommand render tbl name [Arg.func cb] ∧
        ¬ "--force-confnew".toList <:+: installCommand render tbl name [Arg.func cb]) := by
  intro h
  have := (h (fun n => n) [] "x--force-confnew".toList 0).2
  revert this
  decide

set_option maxRecDepth 100000 in
/-- C5, amended: whether the options are omitted, lack the field `confnew`, or carry a boolean
`confnew`, and whether or not a version is passed, the command of `upgrade` is exactly
`sudo <path('apt-get')> upgrade -y -o Dpkg::Options::="--force-confdef" -o
Dpkg::Options::="--force-conf<flag>"`, it is the one command that `upgrade` runs, and the
command of `install` is exactly
`sudo <path('apt-get')> install -y -o Dpkg::Options::="--force-conf<flag>" <specifier>`, where
the flag is `new` when `options.confnew` is `true` and `old` in every other case.  So both
commands contain the fragment of that flag and the command of `upgrade` contains
`--force-confdef`; and a command does not contain the other fragment, provided the tool path
and, for `install`, the specifier do not contain it. -/
theorem confnew_flag (render : Str → Str) (tbl : JSObject) (exec : Str → ExecResult)
    (name : Str) (version : Option Str) (opts : Option (Option Bool)) (cb : Nat) :
    upgradeCommand render tbl (optionArgs opts ++ [Arg.func cb]) =
      "sudo ".toList ++ (formatS render (path tbl "apt-get".toList none).1
        ++ " upgrade -y -o Dpkg::Options::=\"--force-confdef\" -o Dpkg::Options::=\"--force-conf".toList
        ++ flagOf opts ++ "\"".toList) ∧
    installCommand render tbl name (versionArgs version ++ optionArgs opts ++ [Arg.func cb]) =
      "sudo ".toList ++ (formatS render (path tbl "apt-get".toList none).1
        ++ " install -y -o Dpkg::Options::=\"--force-conf".toList
        ++ flagOf opts ++ "\" ".toList
        ++ (installVars name (versionArgs version ++ optionArgs opts ++ [Arg.func cb])).name) ∧
    (flagOf opts = "new".toList ↔ opts = some (some true)) ∧
    (flagOf opts = "old".toList ↔ opts ≠ some (some true)) ∧
    commandsRun (upgrade render tbl exec (optionArgs opts ++ [Arg.func cb])) =
      [upgradeCommand render tbl (optionArgs opts ++ [Arg.func cb])] ∧
    "--force-confdef".toList <:+: upgradeCommand render tbl (optionArgs opts ++ [Arg.func cb]) ∧
    flagFragment opts <:+: upgradeCommand render tbl (optionArgs opts ++ [Arg.func cb]) ∧
    flagFragment opts <:+:
      installCommand render tbl name (versionArgs version ++ optionArgs opts ++ [Arg.func cb]) ∧
    (¬ otherFragment opts <:+: formatS render (path tbl "apt-get".toList none).1 →
      ¬ otherFragment opts <:+: upgradeCommand render tbl (optionArgs opts ++ [Arg.func cb])) ∧
    (¬ otherFragment opts <:+: formatS render (path tbl "apt-get".toList none).1 →
      ¬ otherFragment opts <:+:
        (installVars name (versionArgs version ++ optionArgs opts ++ [Arg.func cb])).name →
      ¬ otherFragment opts <:+:
        installCommand render tbl name
          (versionArgs version ++ optionArgs opts ++ [Arg.func cb])) := by
  have hflag : (flagOf opts = "new".toList ↔ opts = some (some true)) ∧
      (flagOf opts = "old".toList ↔ opts ≠ some (some true)) := by
    unfold flagOf
    by_cases h : opts = some (some true)
    · simp [h]
    · simp [h]
  have hup : forceConfOf (if !isFunction (first (optionArgs opts ++ [Arg.func cb]))
      then first (optionArgs opts ++ [Arg.func cb]) else Arg.prim Prim.null) = flagOf opts := by
    rcases opts with _ | _ | _ | _ <;> rfl
  have hin : (installVars name (versionArgs version ++ optionArgs opts ++ [Arg.func cb])).forceConf
      = flagOf opts := by
    rcases version with _ | v <;> rcases opts with _ | _ | _ | _ <;> rfl
  have hupc : upgradeCommand render tbl (optionArgs opts ++ [Arg.func cb]) =
      "sudo ".toList ++ (formatS render (path tbl "apt-get".toList none).1
        ++ " upgrade -y -o Dpkg::Options::=\"--force-confdef\" -o Dpkg::Options::=\"--force-conf".toList
        ++ flagOf opts ++ "\"".toList) := by
    unfold upgradeCommand
    simp only [hup]
  have hinc : installCommand render tbl name
        (versionArgs version ++ optionArgs opts ++ [Arg.func cb]) =
      "sudo ".toList ++ (formatS render (path tbl "apt-get".toList none).1
        ++ " install -y -o Dpkg::Options::=\"--force-conf".toList
        ++ flagOf opts ++ "\" ".toList
        ++ (installVars name (versionArgs version ++ optionArgs opts ++ [Arg.func cb])).name) := by
    unfold installCommand
    simp only [hin]
  -- the same two texts, cut at the spaces that the code writes around the caller's texts
  have hupw : upgradeCommand render tbl (optionArgs opts ++ [Arg.func cb]) =
      "sudo".toList ++ ' ' :: (formatS render (path tbl "apt-get".toList none).1 ++ ' ' ::
        ("upgrade -y -o Dpkg::Options::=\"--force-confdef\" -o Dpkg::Options::=\"".toList
          ++ flagFragment opts ++ "\"".toList)) := by
    rw [hupc]
    simp [flagFragment]
  have hinw : installCommand render tbl name
        (versionArgs version ++ optionArgs opts ++ [Arg.func cb]) =
      "sudo".toList ++ ' ' :: (formatS render (path tbl "apt-get".toList none).1 ++ ' ' ::
        (("install -y -o Dpkg::Options::=\"".toList ++ flagFragment opts ++ "\"".toList) ++ ' ' ::
          (installVars name (versionArgs version ++ optionArgs opts ++ [Arg.func cb])).name)) := by
    rw [hinc]
    simp [flagFragment]
  have hsp := (fragments_no_space opts).2
  have hsudo : ¬ otherFragment opts <:+: "sudo".toList := by
    rcases opts with _ | _ | _ | _ <;> decide
  have htup : ¬ otherFragment opts <:+:
      "upgrade -y -o Dpkg::Options::=\"--force-confdef\" -o Dpkg::Options::=\"".toList
        ++ flagFragment opts ++ "\"".toList := by
    rcases opts with _ | _ | _ | _ <;> decide
  have htin : ¬ otherFragment opts <:+:
      "install -y -o Dpkg::Options::=\"".toList ++ flagFragment opts ++ "\"".toList := by
    rcases opts with _ | _ | _ | _ <;> decide
  refine ⟨hupc, hinc, hflag.1, hflag.2, ?_, ?_, ?_, ?_, ?_, ?_⟩
  · cases h : exec (upgradeCommand render tbl (optionArgs opts ++ [Arg.func cb])) <;>
      rcases opts with _ | _ | _ | _ <;> simp_all [upgrade, invoke, commandsRun, optionArgs,
        first, isFunction]
  · rw [hupc]
    exact ⟨"sudo ".toList ++ (formatS render (path tbl "apt-get".toList none).1
        ++ " upgrade -y -o Dpkg::Options::=\"".toList),
      "\" -o Dpkg::Options::=\"--force-conf".toList ++ flagOf opts ++ "\"".toList,
      by simp⟩
  · rw [hupw]
    exact ⟨"sudo".toList ++ ' ' :: (formatS render (path tbl "apt-get".toList none).1 ++ ' ' ::
        "upgrade -y -o Dpkg::Options::=\"--force-confdef\" -o Dpkg::Options::=\"".toList),
      "\"".toList, by simp⟩
  · rw [hinw]
    exact ⟨"sudo".toList ++ ' ' :: (formatS render (path tbl "apt-get".toList none).1 ++ ' ' ::
        "install -y -o Dpkg::Options::=\"".toList),
      "\"".toList ++ ' ' ::
        (installVars name (versionArgs version ++ optionArgs opts ++ [Arg.func cb])).name,
      by simp⟩
  · intro hR hc
    rw [hupw] at hc
    rcases infix_append_sep hsp hc with h | h
    · exact hsudo h
    · rcases infix_append_sep hsp h with h | h
      · exact hR h
      · exact htup h
  · intro hR hS hc
    rw [hinw] at hc
    rcases infix_append_sep hsp hc with h | h
    · exact hsudo h
    · rcases infix_append_sep hsp h with h | h
      · exact hR h
      · rcases infix_append_sep hsp h with h | h
        · exact htin h
        · exact hS h

set_option maxRecDepth 100000 in
/-- With the tool path `apt-get` and the name `redis-server`, `upgrade({confnew: true}, cb)`
and `install('redis-server', {confnew: true}, cb)` run commands that contain
`--force-confnew` and do not contain `--force-confold`. -/
theorem confnew_flag_witness :
    flagFragment (some (some true)) = "--force-confnew".toList ∧
    otherFragment (some (some true)) = "--force-confold".toList ∧
    commandsRun (upgrade (fun n => n) [] (fun _ => ExecResult.ok [])
      (optionArgs (some (some true)) ++ [Arg.func 0])) =
        [upgradeCommand (fun n => n) [] (optionArgs (some (some true)) ++ [Arg.func 0])] ∧
    flagFragment (some (some true)) <:+:
      upgradeCommand (fun n => n) [] (optionArgs (some (some true)) ++ [Arg.func 0]) ∧
    ¬ otherFragment (some (some true)) <:+:
      upgradeCommand (fun n => n) [] (optionArgs (some (some true)) ++ [Arg.func 0]) ∧
    ¬ otherFragment (some (some true)) <:+:
      installCommand (fun n => n) [] "redis-server".toList
        (versionArgs none ++ optionArgs (some (some true)) ++ [Arg.func 0]) :=
  have h := confnew_flag (fun n => n) [] (fun _ => ExecResult.ok []) "redis-server".toList
    none (some (some true)) 0
  ⟨by decide, by decide, h.2.2.2.2.1, h.2.2.2.2.2.2.1,
    h.2.2.2.2.2.2.2.2.1 (by decide), h.2.2.2.2.2.2.2.2.2 (by decide) (by decide)⟩

/-- The callback of `upgrade` is called without a guard: `upgrade()` and
`upgrade({confnew: true})` run the command and then fail on calling a value that is no
function. -/
theorem upgrade_without_callback (render : Str → Str) (tbl : JSObject)
    (exec : Str → ExecResult) :
    callbackCalls (upgrade render tbl exec []) = [] ∧
    Event.notCallable ∈ upgrade render tbl exec [] ∧
    Event.notCallable ∈ upgrade render tbl exec [Arg.record (some (Prim.bool true))] := by
  refine ⟨?_, ?_, ?_⟩
  · cases h : exec (upgradeCommand render tbl []) <;>
      simp [upgrade, h, invoke, first, isFunction, callbackCalls]
  · cases h : exec (upgradeCommand render tbl []) <;>
      simp [upgrade, h, invoke, first, isFunction]
  · cases h : exec (upgradeCommand render tbl [Arg.record (some (Prim.bool true))]) <;>
      simp [upgrade, h, invoke, first, isFunction]

/-- On the empty alias table the command of `upgrade` carries exactly one of the two
fragments `--force-confnew` and `--force-confold`, next to `--force-confdef`. -/
theorem upgradeCommand_default :
    upgradeCommand (fun n => n) [] [Arg.func 0] =
      "sudo apt-get upgrade -y -o Dpkg::Options::=\"--force-confdef\" -o Dpkg::Options::=\"--force-confold\"".toList ∧
    upgradeCommand (fun n => n) [] [Arg.record (some (Prim.bool true)), Arg.func 0] =
      "sudo apt-get upgrade -y -o Dpkg::Options::=\"--force-confdef\" -o Dpkg::Options::=\"--force-confnew\"".toList ∧
    upgradeCommand (fun n => n) [] [Arg.record (some (Prim.bool false)), Arg.func 0] =
      "sudo apt-get upgrade -y -o Dpkg::Options::=\"--force-confdef\" -o Dpkg::Options::=\"--force-confold\"".toList ∧
    upgradeCommand (fun n => n) [] [Arg.record none, Arg.func 0] =
      "sudo apt-get upgrade -y -o Dpkg::Options::=\"--force-confdef\" -o Dpkg::Options::=\"--force-confold\"".toList := by
  decide

/-! ## `install` followed by `show` (C3) -/

/-- After a successful installer run `install` hands over to `show`, passing the value that
its variable `name` holds at that point, which is the specifier: `name=version` when a
non-empty version was passed, the name when none was. -/
theorem install_success_events (render : Str → Str) (tbl : JSObject)
    (exec : Nat → Str → ExecResult) (name : Str) (version : Option Str) (rest : List Arg)
    (out : Str)
    (hv : ∀ v, version = some v → v ≠ [])
    (hrest : version = none → isString (first rest) = false)
    (hok : exec 0 (installCommand render tbl name (versionArgs version ++ rest)) =
      ExecResult.ok out) :
    install render tbl exec name (versionArgs version ++ rest) =
      Event.exec (installCommand render tbl name (versionArgs version ++ rest)) ::
        «show» render tbl (exec 1) (specifier name version)
          (installVars name (versionArgs version ++ rest)).callback := by
  have hname : (installVars name (versionArgs version ++ rest)).name = specifier name version := by
    cases version with
    | some v =>
      have hv' := hv v rfl
      cases v with
      | nil => exact absurd rfl hv'
      | cons c cs => simp [installVars, versionArgs, first, specifier, strTruthy]
    | none =>
      have hr := hrest rfl
      cases hf : first rest with
      | prim q =>
        cases q with
        | str w => rw [hf] at hr; simp [isString] at hr
        | _ => simp [installVars, versionArgs, specifier, hf]
      | func g => simp [installVars, versionArgs, specifier, hf]
      | record r => simp [installVars, versionArgs, specifier, hf]
  unfold install
  simp only [hok, hname]

/-- C3, at `install('redis-server', '1.0', cb)` with a successful installer run: the inspector
command that `install` runs is `dpkg -s redis-server=1.0`, whereas `show` with the name as the
caller passed it runs `dpkg -s redis-server`, and the callback receives the outcome of the
former. -/
theorem install_shows_versioned_name (render : Str → Str) (e : ExecError) :
    install render []
        (fun _ c => if c = "dpkg -s redis-server".toList
          then ExecResult.ok "Package: redis-server\nVersion: 1.0\n".toList
          else if c = "dpkg -s redis-server=1.0".toList then ExecResult.error e
          else ExecResult.ok [])
        "redis-server".toList [Arg.prim (Prim.str "1.0".toList), Arg.func 0] =
      [Event.exec
          "sudo apt-get install -y -o Dpkg::Options::=\"--force-confold\" redis-server=1.0".toList,
       Event.exec "dpkg -s redis-server=1.0".toList,
       Event.callback 0 (some e) none] ∧
    showCommand render [] "redis-server".toList = "dpkg -s redis-server".toList := by
  constructor
  · simp [install, installCommand, installVars, «show», showCommand, invoke, first, isString,
      isFunction, strTruthy, forceConfOf, confnewOf, Prim.truthy, formatS, path, JSObject.get,
      JSObject.getOwn, objectPrototypeKeys, JSVal.truthy]
  · simp [showCommand, formatS, path, JSObject.get, JSObject.getOwn, objectPrototypeKeys,
      JSVal.truthy, strTruthy]

/-! ## Propagation of failures (C9) -/

/-- C9: with a function as callback, `show` calls it once, with the inspector's error and no
mapping when the inspector run fails and with no error and `_parseOutput stdout` when it
succeeds; `install` calls it once with the installer's error when the installer run fails,
and then runs no other command than the installer's; and when the installer run succeeds
`install` runs the inspector command and calls the callback once, as `show` does. -/
theorem failures_propagate (render : Str → Str) (tbl : JSObject)
    (exec1 : Str → ExecResult) (exec : Nat → Str → ExecResult)
    (name : Str) (args : List Arg) (f g : Nat)
    (hcb : (installVars name args).callback = Arg.func g) :
    (∀ e, exec1 (showCommand render tbl name) = ExecResult.error e →
      «show» render tbl exec1 name (Arg.func f) =
        [Event.exec (showCommand render tbl name), Event.callback f (some e) none]) ∧
    (∀ out, exec1 (showCommand render tbl name) = ExecResult.ok out →
      «show» render tbl exec1 name (Arg.func f) =
        [Event.exec (showCommand render tbl name),
         Event.callback f none (some (_parseOutput out))]) ∧
    (∀ e, exec 0 (installCommand render tbl name args) = ExecResult.error e →
      install render tbl exec name args =
        [Event.exec (installCommand render tbl name args), Event.callback g (some e) none] ∧
      commandsRun (install render tbl exec name args) = [installCommand render tbl name args]) ∧
    (∀ out, exec 0 (installCommand render tbl name args) = ExecResult.ok out →
      install render tbl exec name args =
        Event.exec (installCommand render tbl name args) ::
          «show» render tbl (exec 1) (installVars name args).name (Arg.func g)) ∧
    (callbackCalls («show» render tbl exec1 name (Arg.func f))).length = 1 ∧
    (callbackCalls (install render tbl exec name args)).length = 1 := by
  refine ⟨?_, ?_, ?_, ?_, ?_, ?_⟩
  · intro e he
    simp [«show», he, invoke]
  · intro out ho
    simp [«show», ho, invoke]
  · intro e he
    simp [install, he, hcb, invoke, commandsRun]
  · intro out ho
    simp [install, ho, hcb]
  · cases h : exec1 (showCommand render tbl name) <;>
      simp [«show», h, invoke, callbackCalls]
  · cases h0 : exec 0 (installCommand render tbl name args) with
    | error e => simp [install, h0, hcb, invoke, callbackCalls]
    | ok out =>
      cases h1 : exec 1 (showCommand render tbl (installVars name args).name) <;>
        simp [install, «show», h0, h1, hcb, invoke, callbackCalls]

/-- The two scenarios of the specification: `install('redis-server', cb)` against tools that
succeed delivers `{Package: 'redis-server', Version: '1.0'}`, and `show` against an inspector
that fails delivers its error. -/
theorem failures_propagate_witness :
    (∀ e, (fun _ => ExecResult.error ⟨1, "No packages found".toList⟩)
        (showCommand (fun n => n) [] "redis-server".toList) = ExecResult.error e →
      «show» (fun n => n) [] (fun _ => ExecResult.error ⟨1, "No packages found".toList⟩)
          "redis-server".toList (Arg.func 7) =
        [Event.exec (showCommand (fun n => n) [] "redis-server".toList),
         Event.callback 7 (some e) none]) ∧
    (∀ out, (fun _ => ExecResult.ok "Package: redis-server\nVersion: 1.0\n".toList)
        (installCommand (fun n => n) [] "redis-server".toList [Arg.func 0]) = ExecResult.ok out →
      install (fun n => n) [] (fun _ _ => ExecResult.ok "Package: redis-server\nVersion: 1.0\n".toList)
          "redis-server".toList [Arg.func 0] =
        Event.exec (installCommand (fun n => n) [] "redis-server".toList [Arg.func 0]) ::
          «show» (fun n => n) []
            (fun _ => ExecResult.ok "Package: redis-server\nVersion: 1.0\n".toList)
            (installVars "redis-server".toList [Arg.func 0]).name (Arg.func 0)) ∧
    install (fun n => n) [] (fun _ _ => ExecResult.ok "Package: redis-server\nVersion: 1.0\n".toList)
        "redis-server".toList [Arg.func 0] =
      [Event.exec
          "sudo apt-get install -y -o Dpkg::Options::=\"--force-confold\" redis-server".toList,
       Event.exec "dpkg -s redis-server".toList,
       Event.callback 0 none
         (some [("Package".toList, "redis-server".toList), ("Version".toList, "1.0".toList)])] :=
  have h := failures_propagate (fun n => n) []
    (fun _ => ExecResult.error ⟨1, "No packages found".toList⟩)
    (fun _ _ => ExecResult.ok "Package: redis-server\nVersion: 1.0\n".toList)
    "redis-server".toList [Arg.func 0] 7 0 (by decide)
  ⟨h.1, h.2.2.2.1, by decide⟩

end NodeApt
